import Mathlib

/-!
Verification development for a knowledge-based Minesweeper agent
(`minesweeper.py`).  The Python classes `Sentence` and `MinesweeperAI`
are embedded shallowly: Python sets of board cells become `Finset Cell`,
the knowledge base (a Python list of `Sentence` objects mutated in
place) becomes a `List Sentence` threaded through explicit state, and
Python integers become `Int`.
-/

/-- A board cell `(row, col)`, compared structurally, as in the Python
tuples used throughout the source. -/
abbrev Cell : Type := ℕ × ℕ

/-- A `Sentence(cells, count)`: a set of board cells together with the number
of mines among them.  `count` is a Python integer, so it is modelled as
`Int` (the code can drive it below zero on inconsistent input). -/
structure Sentence where
  cells : Finset Cell
  count : Int
deriving DecidableEq

namespace Sentence

/-- Python `Sentence.known_mines`: the full cell set when `len(self.cells) == self.count`,
otherwise the empty set. -/
def known_mines (s : Sentence) : Finset Cell :=
  if (s.cells.card : Int) = s.count then s.cells else ∅

/-- Python `Sentence.known_safes`: the full cell set when `self.count == 0`,
otherwise the empty set. -/
def known_safes (s : Sentence) : Finset Cell :=
  if s.count = 0 then s.cells else ∅

/-- Python `Sentence.mark_mine`: if the cell is present, remove it and decrement
the count; otherwise leave the sentence unchanged. -/
def mark_mine (s : Sentence) (c : Cell) : Sentence :=
  if c ∈ s.cells then { cells := s.cells.erase c, count := s.count - 1 } else s

/-- Python `Sentence.mark_safe`: `self.cells.discard(cell)` — remove the cell when
present, count unchanged. -/
def mark_safe (s : Sentence) (c : Cell) : Sentence :=
  { cells := s.cells.erase c, count := s.count }

end Sentence

/-- The mutable state of a `MinesweeperAI` object: board dimensions, the
three certain-fact sets, and the knowledge base (an ordered list, as in
Python). -/
structure AIState where
  height : ℕ
  width : ℕ
  moves_made : Finset Cell
  mines : Finset Cell
  safes : Finset Cell
  knowledge : List Sentence
deriving DecidableEq

namespace AIState

/-- Python `MinesweeperAI.__init__`. -/
def init (height width : ℕ) : AIState :=
  { height := height, width := width, moves_made := ∅, mines := ∅, safes := ∅,
    knowledge := [] }

/-- Python `MinesweeperAI.mark_mine`: add the cell to `mines` and run
`Sentence.mark_mine` on every sentence of the knowledge base. -/
def mark_mine (st : AIState) (c : Cell) : AIState :=
  { st with mines := insert c st.mines,
            knowledge := st.knowledge.map (fun s => s.mark_mine c) }

/-- Python `MinesweeperAI.mark_safe`: add the cell to `safes` and run
`Sentence.mark_safe` on every sentence of the knowledge base. -/
def mark_safe (st : AIState) (c : Cell) : AIState :=
  { st with safes := insert c st.safes,
            knowledge := st.knowledge.map (fun s => s.mark_safe c) }

/-- Iterating `MinesweeperAI.mark_safe` over every cell of a snapshot set
(the loop `for safe_cell in sentence.known_safes().copy()`); the
per-cell updates commute, so the loop is modelled by its aggregate
effect: `safes ∪ C`, and every sentence loses the cells of `C`.
`mark_safes_eq_foldl` below proves the aggregate equal to the iteration. -/
def mark_safes (st : AIState) (C : Finset Cell) : AIState :=
  { st with safes := st.safes ∪ C,
            knowledge := st.knowledge.map
              (fun s => { cells := s.cells \ C, count := s.count }) }

/-- Iterating `MinesweeperAI.mark_mine` over every cell of a snapshot set
(the loop `for mine_cell in sentence.known_mines().copy()`); aggregate
effect: `mines ∪ C`, and every sentence loses the cells of `C` with its
count decremented once per removed cell.  `mark_mines_eq_foldl` below
proves the aggregate equal to the iteration. -/
def mark_mines (st : AIState) (C : Finset Cell) : AIState :=
  { st with mines := st.mines ∪ C,
            knowledge := st.knowledge.map
              (fun s => { cells := s.cells \ C,
                          count := s.count - ((s.cells ∩ C).card : Int) }) }

/-- One iteration of the `while copy_knowledge` loop inside
`add_knowledge.mark_mine_or_safe`, for the sentence popped at position
`k`.  `copy_knowledge` is a shallow copy, so the popped object is the
live (possibly already mutated) sentence at position `k` of
`self.knowledge`; `known_mines` is re-read after the safe-marking loop
has mutated the sentence in place. -/
def mmos_step (st : AIState) (k : ℕ) : AIState :=
  match st.knowledge[k]? with
  | none => st
  | some s =>
      match (st.mark_safes s.known_safes).knowledge[k]? with
      | none => st.mark_safes s.known_safes
      | some s1 => (st.mark_safes s.known_safes).mark_mines s1.known_mines

/-- The `while copy_knowledge` loop of `mark_mine_or_safe`: positions are
popped from the back, `n-1` down to `0`; marking never changes the
length of the knowledge base, so positions are stable. -/
def mmos_go (st : AIState) : ℕ → AIState
  | 0 => st
  | Nat.succ k => mmos_go (st.mmos_step k) k

/-- Python `add_knowledge.mark_mine_or_safe` (one call). -/
def mark_mine_or_safe (st : AIState) : AIState :=
  st.mmos_go st.knowledge.length

/-- Steps 1 and 2 of `add_knowledge`: `self.moves_made.add(cell)` then
`self.mark_safe(cell)`. -/
def observeMark (st : AIState) (cell : Cell) : AIState :=
  AIState.mark_safe { st with moves_made := insert cell st.moves_made } cell

end AIState

/-- The in-bounds cells of the 3×3 block centered on `cell`, excluding
`cell` itself: the set enumerated by the nested
`for x in range(-1, 2): for y in range(-1, 2)` loops of `add_knowledge`
(and of `Minesweeper.nearby_mines`) under the in-bounds and
`(i, j) != cell` guards. -/
def neighbors (height width : ℕ) (cell : Cell) : Finset Cell :=
  (Finset.range height ×ˢ Finset.range width).filter
    (fun c => c ≠ cell ∧ ((c.1 : Int) - (cell.1 : Int)).natAbs ≤ 1 ∧
      ((c.2 : Int) - (cell.2 : Int)).natAbs ≤ 1)

namespace AIState

/-- Step 3 of `add_knowledge` (sentence construction): every in-bounds
neighbor not already in `safes | moves_made` is either counted off
(`new_count -= 1`, when already in `mines`) or added to the new
sentence's cell set.  `st` is the state after `observeMark`. -/
def new_sentence (st : AIState) (cell : Cell) (count : Int) : Sentence :=
  let nbrs := neighbors st.height st.width cell
  { cells := nbrs.filter (fun c => c ∉ st.safes ∪ st.moves_made ∧ c ∉ st.mines),
    count := count -
      ((nbrs.filter (fun c => c ∉ st.safes ∪ st.moves_made ∧ c ∈ st.mines)).card : Int) }

/-- Python `if sentence not in self.knowledge: self.knowledge.append(sentence)`. -/
def addSentence (st : AIState) (s : Sentence) : AIState :=
  if s ∈ st.knowledge then st
  else { st with knowledge := st.knowledge ++ [s] }

/-- The list comprehension dropping every sentence with
`len(sentence.cells) == 0` (run once, between step 4 and step 5). -/
def prune (st : AIState) : AIState :=
  { st with knowledge := st.knowledge.filter (fun s => 0 < s.cells.card) }

/-- One step of the inner `for sentence2 in copy_knowledge` loop of
step 5: read the live sentence at position `j`, and when
`set1.issubset(set2)` append `Sentence(set2 - set1, count2 - count1)`
unless an equal sentence is already in `self.knowledge`. -/
def derive_at (set1 : Finset Cell) (count1 : Int) (st : AIState) (j : ℕ) : AIState :=
  match st.knowledge[j]? with
  | none => st
  | some s2 =>
      if set1 ⊆ s2.cells then
        st.addSentence { cells := s2.cells \ set1, count := s2.count - count1 }
      else st

/-- One iteration of the `while copy_knowledge` loop of step 5: pop the
live sentence at position `k` (its cells and count are read once, before
the inner loop, and nothing mutates during the inner loop), run the
inner loop over positions `0 … k-1`, then call `mark_mine_or_safe`. -/
def step5_iter (st : AIState) (k : ℕ) : AIState :=
  match st.knowledge[k]? with
  | none => st.mark_mine_or_safe
  | some s1 =>
      ((List.range k).foldl (fun acc j => derive_at s1.cells s1.count acc j) st).mark_mine_or_safe

/-- The `while copy_knowledge` loop of step 5, popping positions `n-1`
down to `0` of the snapshot taken at line `copy_knowledge = self.knowledge.copy()`;
sentences appended during the loop land past the snapshot and are never
popped or compared, but every `mark_mine_or_safe` call re-reads the full
current knowledge base. -/
def step5_go (st : AIState) : ℕ → AIState
  | 0 => st
  | Nat.succ k => step5_go (st.step5_iter k) k

/-- Step 5 of `add_knowledge` (subset derivation). -/
def step5 (st : AIState) : AIState :=
  st.step5_go st.knowledge.length

/-- Python `MinesweeperAI.add_knowledge(cell, count)`, the spec's `observe`. -/
def add_knowledge (st : AIState) (cell : Cell) (count : Int) : AIState :=
  let st1 := st.observeMark cell
  let st2 := st1.addSentence (st1.new_sentence cell count)
  let st3 := st2.mark_mine_or_safe
  let st4 := st3.prune
  st4.step5

/-- Python `MinesweeperAI.make_safe_move`; `random.choice` is modelled by the
parameter `pick`, applied to the non-empty candidate set. -/
def make_safe_move (pick : Finset Cell → Cell) (st : AIState) : Option Cell :=
  let moves := st.safes \ (st.moves_made ∪ st.mines)
  if moves = ∅ then none else some (pick moves)

/-- Python `MinesweeperAI.make_random_move`; the comprehension
`{(i, j) for i in range(0, height) for j in range(0, width)}` minus
`mines | moves_made`, with `random.choice` as `pick`. -/
def make_random_move (pick : Finset Cell → Cell) (st : AIState) : Option Cell :=
  let all_moves := Finset.range st.height ×ˢ Finset.range st.width
  let moves := all_moves \ (st.mines ∪ st.moves_made)
  if moves = ∅ then none else some (pick moves)

end AIState

/-- A Minesweeper board (class `Minesweeper`): dimensions plus the true
mine set (the cells where `board[i][j]` is `True`); mines are placed
in bounds. -/
structure Board where
  height : ℕ
  width : ℕ
  mines : Finset Cell

/-- Python `Minesweeper.nearby_mines`: the number of true mines within one row
and column of `cell`, the cell itself excluded. -/
def Board.nearby_mines (b : Board) (cell : Cell) : ℕ :=
  ((neighbors b.height b.width cell).filter (fun c => c ∈ b.mines)).card

/-- Agent states reachable by a sequence of valid observations on board
`b`: each `add_knowledge` call supplies a truly safe cell together with
the true count of mines among its in-bounds neighbors. -/
inductive Reaches (b : Board) : AIState → Prop
  | init : Reaches b (AIState.init b.height b.width)
  | step {st : AIState} (cell : Cell) : Reaches b st → cell ∉ b.mines →
      Reaches b (st.add_knowledge cell ((b.nearby_mines cell : ℕ) : Int))

/-! ### Faithfulness of the aggregated marking loops

The Python loops iterate `self.mark_safe` / `self.mark_mine` over the
cells of a snapshot set in unspecified order; the lemmas below show the
aggregate definitions `mark_safes` / `mark_mines` agree with the
cell-by-cell iteration for every duplicate-free iteration order. -/

theorem erase_sdiff_insert (s : Finset Cell) (a : Cell) (F : Finset Cell) :
    s.erase a \ F = s \ insert a F := by
  rw [Finset.erase_eq, sdiff_sdiff, Finset.sup_eq_union, ← Finset.insert_eq]

theorem mark_safes_empty (st : AIState) : st.mark_safes ∅ = st := by
  unfold AIState.mark_safes
  cases st with
  | mk h w mm mi sa kb =>
      simp only [Finset.union_empty, Finset.sdiff_empty]
      congr 1
      exact (List.map_congr_left (fun s _ => rfl)).trans (List.map_id _)

theorem mark_mines_empty (st : AIState) : st.mark_mines ∅ = st := by
  unfold AIState.mark_mines
  cases st with
  | mk h w mm mi sa kb =>
      simp only [Finset.union_empty]
      congr 1
      refine (List.map_congr_left (fun s _ => ?_)).trans (List.map_id _)
      show Sentence.mk (s.cells \ ∅) (s.count - ((s.cells ∩ ∅).card : Int)) = s
      rw [Finset.sdiff_empty, Finset.inter_empty, Finset.card_empty]
      show Sentence.mk s.cells (s.count - ((0 : ℕ) : Int)) = s
      norm_num

theorem mark_safe_then_safes (st : AIState) (a : Cell) (F : Finset Cell) :
    (st.mark_safe a).mark_safes F = st.mark_safes (insert a F) := by
  unfold AIState.mark_safe AIState.mark_safes
  simp only [List.map_map]
  congr 1
  · rw [Finset.union_insert, Finset.insert_union]
  · refine List.map_congr_left (fun s _ => ?_)
    simp only [Function.comp_apply, Sentence.mark_safe]
    rw [erase_sdiff_insert]

theorem mark_safes_eq_foldl (st : AIState) (l : List Cell) :
    l.foldl AIState.mark_safe st = st.mark_safes l.toFinset := by
  induction l generalizing st with
  | nil =>
      simp only [List.foldl_nil, List.toFinset_nil]
      exact (mark_safes_empty st).symm
  | cons a l ih =>
      simp only [List.foldl_cons, List.toFinset_cons]
      rw [ih, mark_safe_then_safes]

theorem mark_mine_then_mines (st : AIState) (a : Cell) (F : Finset Cell) (ha : a ∉ F) :
    (st.mark_mine a).mark_mines F = st.mark_mines (insert a F) := by
  unfold AIState.mark_mine AIState.mark_mines
  simp only [List.map_map]
  congr 1
  · rw [Finset.union_insert, Finset.insert_union]
  · refine List.map_congr_left (fun s _ => ?_)
    simp only [Function.comp_apply, Sentence.mark_mine]
    by_cases hm : a ∈ s.cells
    · simp only [hm, if_true]
      have h1 : (s.cells.erase a) ∩ F = s.cells ∩ F := by
        ext x
        simp only [Finset.mem_inter, Finset.mem_erase]
        exact ⟨fun hx => ⟨hx.1.2, hx.2⟩,
          fun hx => ⟨⟨fun he => ha (he ▸ hx.2), hx.1⟩, hx.2⟩⟩
      have h2 : s.cells ∩ insert a F = insert a (s.cells ∩ F) := by
        ext x
        simp only [Finset.mem_inter, Finset.mem_insert]
        constructor
        · rintro ⟨hc, hx | hx⟩
          · exact Or.inl hx
          · exact Or.inr ⟨hc, hx⟩
        · rintro (rfl | ⟨hc, hx⟩)
          · exact ⟨hm, Or.inl rfl⟩
          · exact ⟨hc, Or.inr hx⟩
      have h3 : a ∉ s.cells ∩ F := fun hx => ha (Finset.mem_inter.mp hx).2
      rw [erase_sdiff_insert, h1, h2, Finset.card_insert_of_not_mem h3]
      refine congrArg₂ Sentence.mk rfl ?_
      push_cast
      ring
    · simp only [hm, if_false]
      have h2 : s.cells ∩ insert a F = s.cells ∩ F := by
        ext x
        simp only [Finset.mem_inter, Finset.mem_insert]
        constructor
        · rintro ⟨hc, rfl | hx⟩
          · exact absurd hc hm
          · exact ⟨hc, hx⟩
        · rintro ⟨hc, hx⟩
          exact ⟨hc, Or.inr hx⟩
      have h4 : s.cells \ insert a F = s.cells \ F := by
        rw [← erase_sdiff_insert, Finset.erase_eq_of_not_mem hm]
      rw [h2, h4]

theorem mark_mines_eq_foldl (st : AIState) (l : List Cell) (hl : l.Nodup) :
    l.foldl AIState.mark_mine st = st.mark_mines l.toFinset := by
  induction l generalizing st with
  | nil =>
      simp only [List.foldl_nil, List.toFinset_nil]
      exact (mark_mines_empty st).symm
  | cons a l ih =>
      simp only [List.foldl_cons, List.toFinset_cons]
      rw [ih _ (List.nodup_cons.mp hl).2,
        mark_mine_then_mines _ _ _ (by
          intro hmem
          exact (List.nodup_cons.mp hl).1 (List.mem_toFinset.mp hmem))]

/-! ### Claim theorems: Sentence primitives and move selection -/

/-- C7. For every `Sentence`: if `count = |cells|` then `known_mines`
returns exactly the cell set and `known_safes` the empty set; if
`count = 0` then `known_safes` returns exactly the cell set and
`known_mines` the empty set; and when neither condition holds, both
return the empty set. -/
theorem claim_C7 (s : Sentence) :
    (if (s.cells.card : Int) = s.count then
        s.known_mines = s.cells ∧ s.known_safes = ∅ else True) ∧
    (if s.count = 0 then
        s.known_safes = s.cells ∧ s.known_mines = ∅ else True) ∧
    (if (s.cells.card : Int) ≠ s.count ∧ s.count ≠ 0 then
        s.known_mines = ∅ ∧ s.known_safes = ∅ else True) := by
  refine ⟨?_, ?_, ?_⟩
  · by_cases h : (s.cells.card : Int) = s.count
    · rw [if_pos h]
      refine ⟨by rw [Sentence.known_mines, if_pos h], ?_⟩
      rw [Sentence.known_safes]
      by_cases h0 : s.count = 0
      · rw [if_pos h0]
        have hc : s.cells.card = 0 := by omega
        exact Finset.card_eq_zero.mp hc
      · rw [if_neg h0]
    · rw [if_neg h]
      trivial
  · by_cases h0 : s.count = 0
    · rw [if_pos h0]
      refine ⟨by rw [Sentence.known_safes, if_pos h0], ?_⟩
      rw [Sentence.known_mines]
      by_cases h : (s.cells.card : Int) = s.count
      · rw [if_pos h]
        have hc : s.cells.card = 0 := by omega
        exact Finset.card_eq_zero.mp hc
      · rw [if_neg h]
    · rw [if_neg h0]
      trivial
  · by_cases h : (s.cells.card : Int) ≠ s.count ∧ s.count ≠ 0
    · rw [if_pos h]
      exact ⟨by rw [Sentence.known_mines, if_neg h.1], by rw [Sentence.known_safes, if_neg h.2]⟩
    · rw [if_neg h]
      trivial

/-- C9. `make_safe_move` returns `none` iff `safes − (moves_made ∪ mines)`
is empty, and otherwise some element of that set; `make_random_move`
returns `none` iff (all board cells) `− (mines ∪ moves_made)` is empty,
and otherwise some element of that set.  `random.choice` is any function
`pick` returning a member of the non-empty set it is given. -/
theorem claim_C9 (pick : Finset Cell → Cell) (st : AIState)
    (hp1 : (st.safes \ (st.moves_made ∪ st.mines)).Nonempty →
      pick (st.safes \ (st.moves_made ∪ st.mines)) ∈ st.safes \ (st.moves_made ∪ st.mines))
    (hp2 : ((Finset.range st.height ×ˢ Finset.range st.width) \ (st.mines ∪ st.moves_made)).Nonempty →
      pick ((Finset.range st.height ×ˢ Finset.range st.width) \ (st.mines ∪ st.moves_made)) ∈
        (Finset.range st.height ×ˢ Finset.range st.width) \ (st.mines ∪ st.moves_made)) :
    (st.make_safe_move pick = none ↔ st.safes \ (st.moves_made ∪ st.mines) = ∅) ∧
    (∀ c, st.make_safe_move pick = some c → c ∈ st.safes \ (st.moves_made ∪ st.mines)) ∧
    (st.make_random_move pick = none ↔
      (Finset.range st.height ×ˢ Finset.range st.width) \ (st.mines ∪ st.moves_made) = ∅) ∧
    (∀ c, st.make_random_move pick = some c →
      c ∈ (Finset.range st.height ×ˢ Finset.range st.width) \ (st.mines ∪ st.moves_made)) := by
  unfold AIState.make_safe_move AIState.make_random_move
  refine ⟨?_, ?_, ?_, ?_⟩
  · by_cases h : st.safes \ (st.moves_made ∪ st.mines) = ∅ <;> simp [h]
  · intro c hc
    by_cases h : st.safes \ (st.moves_made ∪ st.mines) = ∅
    · simp [h] at hc
    · simp only [if_neg h] at hc
      cases hc
      exact hp1 (Finset.nonempty_iff_ne_empty.mpr h)
  · by_cases h : (Finset.range st.height ×ˢ Finset.range st.width) \ (st.mines ∪ st.moves_made) = ∅ <;>
      simp [h]
  · intro c hc
    by_cases h : (Finset.range st.height ×ˢ Finset.range st.width) \ (st.mines ∪ st.moves_made) = ∅
    · simp [h] at hc
    · simp only [if_neg h] at hc
      cases hc
      exact hp2 (Finset.nonempty_iff_ne_empty.mpr h)

/-- Witness for C9 at a concrete state and a concrete `pick`. -/
theorem claim_C9_witness :
    let st : AIState := ⟨2, 2, ∅, ∅, {(0, 1)}, []⟩
    let pick : Finset Cell → Cell := fun _ => (0, 1)
    (st.make_safe_move pick = none ↔ st.safes \ (st.moves_made ∪ st.mines) = ∅) ∧
    (∀ c, st.make_safe_move pick = some c → c ∈ st.safes \ (st.moves_made ∪ st.mines)) ∧
    (st.make_random_move pick = none ↔
      (Finset.range st.height ×ˢ Finset.range st.width) \ (st.mines ∪ st.moves_made) = ∅) ∧
    (∀ c, st.make_random_move pick = some c →
      c ∈ (Finset.range st.height ×ˢ Finset.range st.width) \ (st.mines ∪ st.moves_made)) :=
  claim_C9 (fun _ => (0, 1)) ⟨2, 2, ∅, ∅, {(0, 1)}, []⟩ (fun _ => by decide) (fun _ => by decide)

/-! ### Monotonicity of the certain-fact sets -/

/-- The three certain-fact sets of `st` are contained in those of `st'`. -/
def SetsLE (st st' : AIState) : Prop :=
  st.moves_made ⊆ st'.moves_made ∧ st.mines ⊆ st'.mines ∧ st.safes ⊆ st'.safes

theorem SetsLE.rfl (st : AIState) : SetsLE st st :=
  ⟨subset_rfl, subset_rfl, subset_rfl⟩

theorem SetsLE.trans {s1 s2 s3 : AIState} (h1 : SetsLE s1 s2) (h2 : SetsLE s2 s3) :
    SetsLE s1 s3 :=
  ⟨h1.1.trans h2.1, h1.2.1.trans h2.2.1, h1.2.2.trans h2.2.2⟩

theorem SetsLE.of_eq {st st' : AIState} (h1 : st'.moves_made = st.moves_made)
    (h2 : st'.mines = st.mines) (h3 : st'.safes = st.safes) : SetsLE st st' :=
  ⟨fun x hx => h1.symm ▸ hx, fun x hx => h2.symm ▸ hx, fun x hx => h3.symm ▸ hx⟩

theorem setsLE_mark_safes (st : AIState) (C : Finset Cell) : SetsLE st (st.mark_safes C) :=
  ⟨subset_rfl, subset_rfl, Finset.subset_union_left⟩

theorem setsLE_mark_mines (st : AIState) (C : Finset Cell) : SetsLE st (st.mark_mines C) :=
  ⟨subset_rfl, Finset.subset_union_left, subset_rfl⟩

theorem setsLE_mmos_step (st : AIState) (k : ℕ) : SetsLE st (st.mmos_step k) := by
  unfold AIState.mmos_step
  split
  · exact SetsLE.rfl st
  · split
    · exact setsLE_mark_safes _ _
    · exact (setsLE_mark_safes _ _).trans (setsLE_mark_mines _ _)

theorem setsLE_mmos_go (n : ℕ) : ∀ st : AIState, SetsLE st (st.mmos_go n) := by
  induction n with
  | zero => exact fun st => SetsLE.rfl st
  | succ k ih => exact fun st => (setsLE_mmos_step st k).trans (ih _)

theorem setsLE_mark_mine_or_safe (st : AIState) : SetsLE st st.mark_mine_or_safe :=
  setsLE_mmos_go _ st

theorem addSentence_sets (st : AIState) (s : Sentence) :
    (st.addSentence s).moves_made = st.moves_made ∧ (st.addSentence s).mines = st.mines ∧
      (st.addSentence s).safes = st.safes := by
  unfold AIState.addSentence
  split <;> exact ⟨rfl, rfl, rfl⟩

theorem derive_at_sets (set1 : Finset Cell) (count1 : Int) (st : AIState) (j : ℕ) :
    (AIState.derive_at set1 count1 st j).moves_made = st.moves_made ∧
      (AIState.derive_at set1 count1 st j).mines = st.mines ∧
      (AIState.derive_at set1 count1 st j).safes = st.safes := by
  unfold AIState.derive_at
  split
  · exact ⟨rfl, rfl, rfl⟩
  · split
    · exact addSentence_sets _ _
    · exact ⟨rfl, rfl, rfl⟩

theorem setsLE_foldl {α : Type} (f : AIState → α → AIState)
    (hf : ∀ st a, SetsLE st (f st a)) (l : List α) :
    ∀ st : AIState, SetsLE st (l.foldl f st) := by
  induction l with
  | nil => exact fun st => SetsLE.rfl st
  | cons a l ih => exact fun st => (hf st a).trans (ih _)

theorem setsLE_step5_iter (st : AIState) (k : ℕ) : SetsLE st (st.step5_iter k) := by
  unfold AIState.step5_iter
  split
  · exact setsLE_mark_mine_or_safe st
  · rename_i s1 heq
    refine (setsLE_foldl _ (fun st' j => ?_) _ st).trans (setsLE_mark_mine_or_safe _)
    have h := derive_at_sets s1.cells s1.count st' j
    exact SetsLE.of_eq h.1 h.2.1 h.2.2

theorem setsLE_step5_go (n : ℕ) : ∀ st : AIState, SetsLE st (st.step5_go n) := by
  induction n with
  | zero => exact fun st => SetsLE.rfl st
  | succ k ih => exact fun st => (setsLE_step5_iter st k).trans (ih _)

theorem setsLE_add_knowledge (st : AIState) (cell : Cell) (count : Int) :
    SetsLE st (st.add_knowledge cell count) := by
  have h1 : SetsLE st (st.observeMark cell) :=
    ⟨Finset.subset_insert _ _, subset_rfl, Finset.subset_insert _ _⟩
  have h2 := addSentence_sets (st.observeMark cell)
    ((st.observeMark cell).new_sentence cell count)
  have h3 : SetsLE (st.observeMark cell)
      ((st.observeMark cell).addSentence ((st.observeMark cell).new_sentence cell count)) :=
    SetsLE.of_eq h2.1 h2.2.1 h2.2.2
  have h5 : ∀ st' : AIState, SetsLE st' st'.step5 := fun st' => setsLE_step5_go _ st'
  have h4 : ∀ st' : AIState, SetsLE st' st'.prune := fun st' => SetsLE.of_eq rfl rfl rfl
  show SetsLE st ((((st.observeMark cell).addSentence
      ((st.observeMark cell).new_sentence cell count)).mark_mine_or_safe.prune).step5)
  exact (((h1.trans h3).trans (setsLE_mark_mine_or_safe _)).trans (h4 _)).trans (h5 _)

/-- C10. The certain-fact sets grow monotonically across `add_knowledge`:
`moves_made`, `mines` and `safes` before a call are subsets of their
values after the call. -/
theorem claim_C10 (st : AIState) (cell : Cell) (count : Int) :
    st.moves_made ⊆ (st.add_knowledge cell count).moves_made ∧
      st.mines ⊆ (st.add_knowledge cell count).mines ∧
      st.safes ⊆ (st.add_knowledge cell count).safes :=
  setsLE_add_knowledge st cell count

/-! ### `moves_made` is only written by step 1 of `add_knowledge` -/

theorem mmos_step_moves (st : AIState) (k : ℕ) :
    (st.mmos_step k).moves_made = st.moves_made := by
  unfold AIState.mmos_step
  split
  · rfl
  · split <;> rfl

theorem mmos_go_moves (n : ℕ) : ∀ st : AIState, (st.mmos_go n).moves_made = st.moves_made := by
  induction n with
  | zero => exact fun st => rfl
  | succ k ih => exact fun st => (ih _).trans (mmos_step_moves st k)

theorem foldl_moves {α : Type} (f : AIState → α → AIState)
    (hf : ∀ st a, (f st a).moves_made = st.moves_made) (l : List α) :
    ∀ st : AIState, (l.foldl f st).moves_made = st.moves_made := by
  induction l with
  | nil => exact fun st => rfl
  | cons a l ih => exact fun st => (ih _).trans (hf st a)

theorem step5_iter_moves (st : AIState) (k : ℕ) :
    (st.step5_iter k).moves_made = st.moves_made := by
  unfold AIState.step5_iter
  split
  · exact mmos_go_moves _ st
  · rename_i s1 heq
    exact (mmos_go_moves _ _).trans
      (foldl_moves _ (fun st' j => (derive_at_sets s1.cells s1.count st' j).1) _ st)

theorem step5_go_moves (n : ℕ) : ∀ st : AIState, (st.step5_go n).moves_made = st.moves_made := by
  induction n with
  | zero => exact fun st => rfl
  | succ k ih => exact fun st => (ih _).trans (step5_iter_moves st k)

theorem add_knowledge_moves (st : AIState) (cell : Cell) (count : Int) :
    (st.add_knowledge cell count).moves_made = insert cell st.moves_made := by
  show ((((st.observeMark cell).addSentence
      ((st.observeMark cell).new_sentence cell count)).mark_mine_or_safe.prune).step5).moves_made = _
  rw [AIState.step5, step5_go_moves]
  show (((st.observeMark cell).addSentence
      ((st.observeMark cell).new_sentence cell count)).mark_mine_or_safe).moves_made = _
  rw [AIState.mark_mine_or_safe, mmos_go_moves,
    (addSentence_sets (st.observeMark cell) _).1]
  rfl

/-- C4 (amended).  A second `add_knowledge` call with identical arguments
leaves `moves_made` unchanged, and it never retracts a certain fact: the
`mines` and `safes` sets after the first call are contained in those
after the repeated call.  (The knowledge base and the certain-fact sets
are not left identical in general: the repeated call can complete
derivations the first call missed; see the counterexample.) -/
theorem claim_C4_amended (st : AIState) (cell : Cell) (count : Int) :
    ((st.add_knowledge cell count).add_knowledge cell count).moves_made =
      (st.add_knowledge cell count).moves_made ∧
    (st.add_knowledge cell count).mines ⊆
      ((st.add_knowledge cell count).add_knowledge cell count).mines ∧
    (st.add_knowledge cell count).safes ⊆
      ((st.add_knowledge cell count).add_knowledge cell count).safes := by
  refine ⟨?_, (setsLE_add_knowledge _ _ _).2.1, (setsLE_add_knowledge _ _ _).2.2⟩
  rw [add_knowledge_moves, add_knowledge_moves, Finset.insert_idem]

/-! ### Counterexample to C4 as stated (idempotence fails)

3×3 board with mines at `(2,1)` and `(2,2)`; the agent observes the
truly safe cells `(0,0), (1,2), (1,1), (1,0)` with their true nearby
counts.  Repeating the last call `add_knowledge (1,0) 1` with identical
arguments changes the knowledge base, the mines set and the safes set:
the repeated call completes subset derivations the first call missed. -/

def idemBoard : Board := ⟨3, 3, {(2, 1), (2, 2)}⟩

def idemState1 : AIState :=
  (((((AIState.init 3 3).add_knowledge (0, 0)
      ((idemBoard.nearby_mines (0, 0) : ℕ) : Int)).add_knowledge (1, 2)
      ((idemBoard.nearby_mines (1, 2) : ℕ) : Int)).add_knowledge (1, 1)
      ((idemBoard.nearby_mines (1, 1) : ℕ) : Int)).add_knowledge (1, 0)
      ((idemBoard.nearby_mines (1, 0) : ℕ) : Int))

def idemState2 : AIState :=
  idemState1.add_knowledge (1, 0) ((idemBoard.nearby_mines (1, 0) : ℕ) : Int)

/-- C4 counterexample: a reachable state (valid observations only) on
which calling `add_knowledge` twice with identical arguments does not
leave the knowledge base, `mines` and `safes` unchanged — all three
differ after the repeated call. -/
theorem claim_C4_counterexample :
    Reaches idemBoard idemState1 ∧ Reaches idemBoard idemState2 ∧
    idemState2.knowledge ≠ idemState1.knowledge ∧
    idemState2.mines ≠ idemState1.mines ∧
    idemState2.safes ≠ idemState1.safes := by
  have h1 : Reaches idemBoard idemState1 :=
    Reaches.step (1, 0)
      (Reaches.step (1, 1)
        (Reaches.step (1, 2)
          (Reaches.step (0, 0) Reaches.init (by decide))
          (by decide))
        (by decide))
      (by decide)
  exact ⟨h1, Reaches.step (1, 0) h1 (by decide), by decide, by decide, by decide⟩

/-! ### C5: deduplication at append time, and its failure globally -/

theorem addSentence_nodup (st : AIState) (s : Sentence) (h : st.knowledge.Nodup) :
    (st.addSentence s).knowledge.Nodup := by
  unfold AIState.addSentence
  split
  · exact h
  · rename_i hmem
    refine List.Nodup.append h (List.nodup_singleton s) ?_
    intro a ha hb
    rw [List.mem_singleton] at hb
    exact hmem (hb ▸ ha)

/-- C5 (amended).  The append operations of `add_knowledge` deduplicate at
append time: appending the newly constructed sentence, and appending a
derived sentence in the subset-derivation step, preserve the
no-structural-duplicates property of the knowledge base.  (The global
invariant fails because in-place mutation by `mark_mine`/`mark_safe` can
make two already-present sentences equal; see the counterexample.) -/
theorem claim_C5_amended (st : AIState) (s : Sentence) (set1 : Finset Cell) (count1 : Int)
    (j : ℕ) (h : st.knowledge.Nodup) :
    (st.addSentence s).knowledge.Nodup ∧
    (AIState.derive_at set1 count1 st j).knowledge.Nodup := by
  refine ⟨addSentence_nodup st s h, ?_⟩
  unfold AIState.derive_at
  split
  · exact h
  · split
    · exact addSentence_nodup _ _ h
    · exact h

/-- Witness for the amended C5 at a concrete state. -/
theorem claim_C5_amended_witness :
    let st : AIState := ⟨2, 2, ∅, ∅, ∅, [⟨{(0, 0), (0, 1)}, 1⟩]⟩
    (st.addSentence ⟨{(1, 1)}, 1⟩).knowledge.Nodup ∧
    (AIState.derive_at {(0, 0)} 0 st 0).knowledge.Nodup :=
  claim_C5_amended ⟨2, 2, ∅, ∅, ∅, [⟨{(0, 0), (0, 1)}, 1⟩]⟩ ⟨{(1, 1)}, 1⟩ {(0, 0)} 0 0
    (by decide)

/-- A 3×3 board with a single mine at `(0,1)`; observing `(1,1)` then
`(0,0)` (both truly safe, with true counts) drives the agent into a
knowledge base holding two structurally equal sentences and a retained
empty sentence. -/
def dupBoard : Board := ⟨3, 3, {(0, 1)}⟩

def dupState : AIState :=
  ((AIState.init 3 3).add_knowledge (1, 1)
      ((dupBoard.nearby_mines (1, 1) : ℕ) : Int)).add_knowledge (0, 0)
      ((dupBoard.nearby_mines (0, 0) : ℕ) : Int)

/-- C5 counterexample: a reachable state (valid observations only) whose
knowledge base holds the same sentence at two distinct list positions —
`mark_safe`-mutation made two previously distinct sentences equal, and
nothing deduplicates after mutation. -/
theorem claim_C5_counterexample :
    Reaches dupBoard dupState ∧
    dupState.knowledge[0]? = some ⟨{(0, 1), (1, 0)}, 1⟩ ∧
    dupState.knowledge[1]? = some ⟨{(0, 1), (1, 0)}, 1⟩ := by
  refine ⟨Reaches.step (0, 0) (Reaches.step (1, 1) Reaches.init (by decide)) (by decide),
    by decide, by decide⟩

/-- C3 counterexample: the same reachable state retains a sentence with an
empty cell set after the call returns — the sentence was emptied by
marking during step 5, after the single pruning pass had already run. -/
theorem claim_C3_counterexample :
    Reaches dupBoard dupState ∧ (⟨∅, 0⟩ : Sentence) ∈ dupState.knowledge := by
  exact ⟨Reaches.step (0, 0) (Reaches.step (1, 1) Reaches.init (by decide)) (by decide),
    by decide⟩

/-! ### C2: subset derivation is order-dependent -/

/-- C2 (amended).  Whenever the derivation step examines an ordered pair —
popped sentence with cells `set1` and count `count1` against the live
sentence `s2` at an earlier snapshot position `j` — and `set1 ⊆ cells(s2)`,
the derived sentence `(cells(s2) − set1, count(s2) − count1)` is in the
knowledge base immediately afterwards (appended unless already present).
Pairs are examined in this one direction only, over the snapshot taken
when step 5 starts, so a subset pair in the other orientation can remain
underived when the call returns; see the counterexample. -/
theorem claim_C2_amended (set1 : Finset Cell) (count1 : Int) (st : AIState) (j : ℕ)
    (s2 : Sentence) (hj : st.knowledge[j]? = some s2) (hsub : set1 ⊆ s2.cells) :
    (⟨s2.cells \ set1, s2.count - count1⟩ : Sentence) ∈
      (AIState.derive_at set1 count1 st j).knowledge := by
  unfold AIState.derive_at
  simp only [hj]
  rw [if_pos hsub]
  unfold AIState.addSentence
  split
  · assumption
  · simp

/-- Witness for the amended C2 at a concrete state. -/
theorem claim_C2_amended_witness :
    (⟨{(0, 1)}, 1⟩ : Sentence) ∈
      (AIState.derive_at {(0, 0)} 0 ⟨2, 2, ∅, ∅, ∅, [⟨{(0, 0), (0, 1)}, 1⟩]⟩ 0).knowledge :=
  claim_C2_amended {(0, 0)} 0 ⟨2, 2, ∅, ∅, ∅, [⟨{(0, 0), (0, 1)}, 1⟩]⟩ 0
    ⟨{(0, 0), (0, 1)}, 1⟩ (by decide) (by decide)

/-- A 3×3 board with a single mine at `(1,0)`; observing `(0,0)` then
`(1,1)` leaves a subset pair whose derived sentence is absent: the
subset sentence sits earlier in the list than its superset, and step 5
tests pairs in one direction only. -/
def orderBoard : Board := ⟨3, 3, {(1, 0)}⟩

def orderState : AIState :=
  ((AIState.init 3 3).add_knowledge (0, 0)
      ((orderBoard.nearby_mines (0, 0) : ℕ) : Int)).add_knowledge (1, 1)
      ((orderBoard.nearby_mines (1, 1) : ℕ) : Int)

/-- C2 counterexample: after the call returns, the knowledge base holds
`{(0,1),(1,0)} = 1` and the strictly larger `{(0,1),(0,2),(1,0),(1,2),
(2,0),(2,1),(2,2)} = 1`, yet the derived sentence (the 5-cell difference
with count 0) is not present. -/
theorem claim_C2_counterexample :
    Reaches orderBoard orderState ∧
    orderState.knowledge[0]? = some ⟨{(0, 1), (1, 0)}, 1⟩ ∧
    orderState.knowledge[1]? =
      some ⟨{(0, 1), (0, 2), (1, 0), (1, 2), (2, 0), (2, 1), (2, 2)}, 1⟩ ∧
    ({(0, 1), (1, 0)} : Finset Cell) ⊆
      {(0, 1), (0, 2), (1, 0), (1, 2), (2, 0), (2, 1), (2, 2)} ∧
    (({(0, 1), (0, 2), (1, 0), (1, 2), (2, 0), (2, 1), (2, 2)} : Finset Cell) \
      {(0, 1), (1, 0)}) ≠ ∅ ∧
    (⟨({(0, 1), (0, 2), (1, 0), (1, 2), (2, 0), (2, 1), (2, 2)} : Finset Cell) \
      {(0, 1), (1, 0)}, 1 - 1⟩ : Sentence) ∉ orderState.knowledge := by
  refine ⟨Reaches.step (1, 1) (Reaches.step (0, 0) Reaches.init (by decide)) (by decide),
    by decide, by decide, by decide, by decide, by decide⟩

/-! ### C1: certain-fact propagation misses late-resolved sentences -/

/-- C1 (amended).  When `mark_mine_or_safe` pops the sentence at position
`k` (current value `s`), it records every cell of `s.known_safes()` into
`safes` and then every known mine of the safes-stripped sentence into
`mines`.  The scan records each popped sentence's then-visible facts,
but a mark made while scanning position `k` can make a sentence at an
already-scanned (later) position newly resolvable, and the final scan of
the call is never followed by another one, so at return a sentence's
`known_mines`/`known_safes` need not be contained in `mines`/`safes`;
see the counterexample. -/
theorem claim_C1_amended (st : AIState) (k : ℕ) (s : Sentence)
    (h : st.knowledge[k]? = some s) :
    s.known_safes ⊆ (st.mmos_step k).safes ∧
    (Sentence.mk (s.cells \ s.known_safes) s.count).known_mines ⊆ (st.mmos_step k).mines := by
  unfold AIState.mmos_step
  simp only [h]
  have hmap : (st.mark_safes s.known_safes).knowledge[k]? =
      some (Sentence.mk (s.cells \ s.known_safes) s.count) := by
    unfold AIState.mark_safes
    simp [List.getElem?_map, h]
  simp only [hmap]
  constructor
  · show s.known_safes ⊆ ((st.mark_safes s.known_safes).mark_mines _).safes
    exact Finset.subset_union_right.trans
      (subset_of_eq rfl : (st.mark_safes s.known_safes).safes ⊆ _)
  · exact Finset.subset_union_right

/-- Witness for the amended C1 at a concrete state. -/
theorem claim_C1_amended_witness :
    let s : Sentence := ⟨{(0, 0)}, 1⟩
    let st : AIState := ⟨2, 2, ∅, ∅, ∅, [s]⟩
    s.known_safes ⊆ (st.mmos_step 0).safes ∧
    (Sentence.mk (s.cells \ s.known_safes) s.count).known_mines ⊆ (st.mmos_step 0).mines :=
  claim_C1_amended ⟨2, 2, ∅, ∅, ∅, [⟨{(0, 0)}, 1⟩]⟩ 0 ⟨{(0, 0)}, 1⟩ (by decide)

/-- A 3×7 board with mines at `(1,0)`, `(0,1)` and `(2,4)`.  The seven
observations below (all truly safe cells, true counts) drive the final
call into a deduction cascade that climbs forward through the knowledge
list during its last propagation scan, leaving a resolvable sentence
unrecorded. -/
def fixBoard : Board := ⟨3, 7, {(1, 0), (0, 1), (2, 4)}⟩

def fixState : AIState :=
  ((((((((AIState.init 3 7).add_knowledge (0, 0)
      ((fixBoard.nearby_mines (0, 0) : ℕ) : Int)).add_knowledge (2, 0)
      ((fixBoard.nearby_mines (2, 0) : ℕ) : Int)).add_knowledge (1, 2)
      ((fixBoard.nearby_mines (1, 2) : ℕ) : Int)).add_knowledge (0, 4)
      ((fixBoard.nearby_mines (0, 4) : ℕ) : Int)).add_knowledge (2, 3)
      ((fixBoard.nearby_mines (2, 3) : ℕ) : Int)).add_knowledge (2, 5)
      ((fixBoard.nearby_mines (2, 5) : ℕ) : Int)).add_knowledge (2, 1)
      ((fixBoard.nearby_mines (2, 1) : ℕ) : Int))

/-- C1 counterexample: after the last call returns, the knowledge base
still holds the sentence `{(1,6),(2,6)} = 0`, whose `known_safes` is the
non-empty `{(1,6),(2,6)}`, yet neither cell is in the agent's `safes` —
certain-fact propagation stopped short of the fixpoint. -/
theorem claim_C1_counterexample :
    Reaches fixBoard fixState ∧
    (⟨{(1, 6), (2, 6)}, 0⟩ : Sentence) ∈ fixState.knowledge ∧
    ¬ (⟨{(1, 6), (2, 6)}, 0⟩ : Sentence).known_safes ⊆ fixState.safes := by
  refine ⟨Reaches.step (2, 1) (Reaches.step (2, 5) (Reaches.step (2, 3)
      (Reaches.step (0, 4) (Reaches.step (1, 2) (Reaches.step (2, 0)
        (Reaches.step (0, 0) Reaches.init (by decide)) (by decide)) (by decide))
        (by decide)) (by decide)) (by decide)) (by decide),
    by decide, by decide⟩

/-! ### Soundness of the knowledge base under valid observations -/

/-- Sentence `s` is true of board `b`: exactly `count` of its cells are
mines of `b`. -/
def SoundSentence (b : Board) (s : Sentence) : Prop :=
  ((s.cells ∩ b.mines).card : Int) = s.count

/-- The agent's state is sound for board `b`: the dimensions agree,
recorded mines are true mines, recorded safes are truly safe, played
cells are recorded safe, and every sentence of the knowledge base is
true of the board. -/
structure Sound (b : Board) (st : AIState) : Prop where
  hheight : st.height = b.height
  hwidth : st.width = b.width
  hmines : st.mines ⊆ b.mines
  hsafes : ∀ c ∈ st.safes, c ∉ b.mines
  hmoves : st.moves_made ⊆ st.safes
  hkb : ∀ s ∈ st.knowledge, SoundSentence b s

theorem known_safes_sound {b : Board} {s : Sentence} (hs : SoundSentence b s) :
    ∀ c ∈ s.known_safes, c ∉ b.mines := by
  intro c hc hm
  rw [Sentence.known_safes] at hc
  split at hc
  · rename_i h0
    have hcm : c ∈ s.cells ∩ b.mines := Finset.mem_inter.mpr ⟨hc, hm⟩
    rw [SoundSentence, h0] at hs
    have : s.cells ∩ b.mines = ∅ := Finset.card_eq_zero.mp (by exact_mod_cast hs)
    rw [this] at hcm
    exact absurd hcm (Finset.not_mem_empty c)
  · exact absurd hc (Finset.not_mem_empty c)

theorem known_mines_sound {b : Board} {s : Sentence} (hs : SoundSentence b s) :
    s.known_mines ⊆ b.mines := by
  intro c hc
  rw [Sentence.known_mines] at hc
  split at hc
  · rename_i hcard
    rw [SoundSentence, ← hcard] at hs
    have hcards : (s.cells ∩ b.mines).card = s.cells.card := by exact_mod_cast hs
    have heq : s.cells ∩ b.mines = s.cells :=
      Finset.eq_of_subset_of_card_le Finset.inter_subset_left (le_of_eq hcards.symm)
    have : c ∈ s.cells ∩ b.mines := heq.symm ▸ hc
    exact (Finset.mem_inter.mp this).2
  · exact absurd hc (Finset.not_mem_empty c)

theorem sound_sentence_sdiff_safe {b : Board} {s : Sentence} (hs : SoundSentence b s)
    {C : Finset Cell} (hC : ∀ c ∈ C, c ∉ b.mines) :
    SoundSentence b ⟨s.cells \ C, s.count⟩ := by
  rw [SoundSentence]
  have h : (s.cells \ C) ∩ b.mines = s.cells ∩ b.mines := by
    ext c
    simp only [Finset.mem_inter, Finset.mem_sdiff]
    exact ⟨fun hx => ⟨hx.1.1, hx.2⟩, fun hx => ⟨⟨hx.1, fun hcC => hC c hcC hx.2⟩, hx.2⟩⟩
  rw [h]
  exact hs

theorem sound_sentence_sdiff_mine {b : Board} {s : Sentence} (hs : SoundSentence b s)
    {C : Finset Cell} (hC : C ⊆ b.mines) :
    SoundSentence b ⟨s.cells \ C, s.count - ((s.cells ∩ C).card : Int)⟩ := by
  rw [SoundSentence]
  have h : (s.cells \ C) ∩ b.mines = (s.cells ∩ b.mines) \ (s.cells ∩ C) := by
    ext c
    simp only [Finset.mem_inter, Finset.mem_sdiff, not_and]
    constructor
    · rintro ⟨⟨hc, hnC⟩, hm⟩
      exact ⟨⟨hc, hm⟩, fun _ => hnC⟩
    · rintro ⟨⟨hc, hm⟩, hn⟩
      exact ⟨⟨hc, hn hc⟩, hm⟩
  have hsub : s.cells ∩ C ⊆ s.cells ∩ b.mines := fun c hc =>
    Finset.mem_inter.mpr ⟨(Finset.mem_inter.mp hc).1, hC (Finset.mem_inter.mp hc).2⟩
  rw [h, Finset.card_sdiff hsub, Nat.cast_sub (Finset.card_le_card hsub), hs]

theorem sound_mark_safes {b : Board} {st : AIState} (hS : Sound b st)
    {C : Finset Cell} (hC : ∀ c ∈ C, c ∉ b.mines) : Sound b (st.mark_safes C) := by
  refine ⟨hS.hheight, hS.hwidth, hS.hmines, ?_, ?_, ?_⟩
  · intro c hc
    rcases Finset.mem_union.mp hc with h | h
    · exact hS.hsafes c h
    · exact hC c h
  · exact hS.hmoves.trans Finset.subset_union_left
  · intro s hs
    rw [AIState.mark_safes] at hs
    simp only [List.mem_map] at hs
    obtain ⟨s0, hs0, rfl⟩ := hs
    exact sound_sentence_sdiff_safe (hS.hkb s0 hs0) hC

theorem sound_mark_mines {b : Board} {st : AIState} (hS : Sound b st)
    {C : Finset Cell} (hC : C ⊆ b.mines) : Sound b (st.mark_mines C) := by
  refine ⟨hS.hheight, hS.hwidth, ?_, hS.hsafes, hS.hmoves, ?_⟩
  · exact Finset.union_subset hS.hmines hC
  · intro s hs
    rw [AIState.mark_mines] at hs
    simp only [List.mem_map] at hs
    obtain ⟨s0, hs0, rfl⟩ := hs
    exact sound_sentence_sdiff_mine (hS.hkb s0 hs0) hC

theorem mem_of_getElem_opt {l : List Sentence} {n : ℕ} {a : Sentence}
    (h : l[n]? = some a) : a ∈ l := by
  obtain ⟨hn, rfl⟩ := List.getElem?_eq_some.mp h
  exact List.getElem_mem hn

theorem sound_mmos_step {b : Board} {st : AIState} (hS : Sound b st) (k : ℕ) :
    Sound b (st.mmos_step k) := by
  unfold AIState.mmos_step
  split
  · exact hS
  · rename_i s heq
    have hs : SoundSentence b s := hS.hkb s (mem_of_getElem_opt heq)
    have hS1 : Sound b (st.mark_safes s.known_safes) :=
      sound_mark_safes hS (known_safes_sound hs)
    split
    · exact hS1
    · rename_i s1 heq1
      exact sound_mark_mines hS1
        (known_mines_sound (hS1.hkb s1 (mem_of_getElem_opt heq1)))

theorem sound_mmos_go {b : Board} (n : ℕ) :
    ∀ st : AIState, Sound b st → Sound b (st.mmos_go n) := by
  induction n with
  | zero => exact fun st h => h
  | succ k ih => exact fun st h => ih _ (sound_mmos_step h k)

theorem sound_mark_mine_or_safe {b : Board} {st : AIState} (hS : Sound b st) :
    Sound b st.mark_mine_or_safe :=
  sound_mmos_go _ st hS

theorem sound_observeMark {b : Board} {st : AIState} (hS : Sound b st)
    {cell : Cell} (hc : cell ∉ b.mines) : Sound b (st.observeMark cell) := by
  refine ⟨hS.hheight, hS.hwidth, hS.hmines, ?_, ?_, ?_⟩
  · intro c hmem
    rcases Finset.mem_insert.mp hmem with rfl | h
    · exact hc
    · exact hS.hsafes c h
  · exact Finset.insert_subset_insert cell hS.hmoves
  · intro s hs
    rw [AIState.observeMark, AIState.mark_safe] at hs
    simp only [List.mem_map] at hs
    obtain ⟨s0, hs0, rfl⟩ := hs
    rw [Sentence.mark_safe, Finset.erase_eq]
    exact sound_sentence_sdiff_safe (hS.hkb s0 hs0)
      (fun c hmem => (Finset.mem_singleton.mp hmem) ▸ hc)

theorem sound_new_sentence {b : Board} {st : AIState} (hS : Sound b st) (cell : Cell) :
    SoundSentence b (st.new_sentence cell ((b.nearby_mines cell : ℕ) : Int)) := by
  rw [AIState.new_sentence, SoundSentence]
  have hdim : neighbors st.height st.width cell = neighbors b.height b.width cell := by
    rw [hS.hheight, hS.hwidth]
  rw [hdim]
  set nbrs := neighbors b.height b.width cell with hnbrs
  have hmine_total : b.nearby_mines cell = (nbrs.filter (fun c => c ∈ b.mines)).card := rfl
  have hsplit : ((nbrs.filter (fun c => c ∈ b.mines)).filter (fun c => c ∈ st.mines)).card +
      ((nbrs.filter (fun c => c ∈ b.mines)).filter (fun c => ¬ c ∈ st.mines)).card =
      (nbrs.filter (fun c => c ∈ b.mines)).card :=
    Finset.filter_card_add_filter_neg_card_eq_card _
  have h1 : nbrs.filter (fun c => c ∉ st.safes ∪ st.moves_made ∧ c ∉ st.mines) ∩ b.mines =
      (nbrs.filter (fun c => c ∈ b.mines)).filter (fun c => ¬ c ∈ st.mines) := by
    ext c
    simp only [Finset.mem_inter, Finset.mem_filter, Finset.mem_union, not_or]
    constructor
    · rintro ⟨⟨hn, _, hnm⟩, hm⟩
      exact ⟨⟨hn, hm⟩, hnm⟩
    · rintro ⟨⟨hn, hm⟩, hnm⟩
      exact ⟨⟨hn, ⟨fun hsf => hS.hsafes c hsf hm, fun hmv => hS.hsafes c (hS.hmoves hmv) hm⟩,
        hnm⟩, hm⟩
  have h2 : nbrs.filter (fun c => c ∉ st.safes ∪ st.moves_made ∧ c ∈ st.mines) =
      (nbrs.filter (fun c => c ∈ b.mines)).filter (fun c => c ∈ st.mines) := by
    ext c
    simp only [Finset.mem_filter, Finset.mem_union, not_or]
    constructor
    · rintro ⟨hn, _, hm⟩
      exact ⟨⟨hn, hS.hmines hm⟩, hm⟩
    · rintro ⟨⟨hn, hbm⟩, hm⟩
      exact ⟨hn, ⟨fun hsf => hS.hsafes c hsf hbm, fun hmv => hS.hsafes c (hS.hmoves hmv) hbm⟩,
        hm⟩
  rw [h1, h2, hmine_total]
  push_cast
  omega

theorem sound_addSentence {b : Board} {st : AIState} (hS : Sound b st)
    {s : Sentence} (hs : SoundSentence b s) : Sound b (st.addSentence s) := by
  unfold AIState.addSentence
  split
  · exact hS
  · refine ⟨hS.hheight, hS.hwidth, hS.hmines, hS.hsafes, hS.hmoves, ?_⟩
    intro s0 hs0
    rcases List.mem_append.mp hs0 with h | h
    · exact hS.hkb s0 h
    · exact (List.mem_singleton.mp h) ▸ hs

theorem sound_prune {b : Board} {st : AIState} (hS : Sound b st) : Sound b st.prune := by
  refine ⟨hS.hheight, hS.hwidth, hS.hmines, hS.hsafes, hS.hmoves, ?_⟩
  intro s hs
  exact hS.hkb s (List.mem_of_mem_filter hs)

theorem sound_derive_at {b : Board} {st : AIState} (hS : Sound b st)
    {set1 : Finset Cell} {count1 : Int} (h1 : SoundSentence b ⟨set1, count1⟩) (j : ℕ) :
    Sound b (AIState.derive_at set1 count1 st j) := by
  unfold AIState.derive_at
  split
  · exact hS
  · rename_i s2 heq
    split
    · rename_i hsub
      refine sound_addSentence hS ?_
      have hs2 : SoundSentence b s2 := hS.hkb s2 (mem_of_getElem_opt heq)
      rw [SoundSentence]
      have h : (s2.cells \ set1) ∩ b.mines = (s2.cells ∩ b.mines) \ (set1 ∩ b.mines) := by
        ext c
        simp only [Finset.mem_inter, Finset.mem_sdiff, not_and]
        constructor
        · rintro ⟨⟨hc, hn1⟩, hm⟩
          exact ⟨⟨hc, hm⟩, fun hc1 _ => hn1 hc1⟩
        · rintro ⟨⟨hc, hm⟩, hn⟩
          exact ⟨⟨hc, fun hc1 => hn hc1 hm⟩, hm⟩
      have hsub2 : set1 ∩ b.mines ⊆ s2.cells ∩ b.mines := fun c hc =>
        Finset.mem_inter.mpr ⟨hsub (Finset.mem_inter.mp hc).1, (Finset.mem_inter.mp hc).2⟩
      rw [h, Finset.card_sdiff hsub2, Nat.cast_sub (Finset.card_le_card hsub2), hs2]
      rw [SoundSentence] at h1
      rw [h1]
    · exact hS

theorem sound_foldl_derive {b : Board} {set1 : Finset Cell} {count1 : Int}
    (h1 : SoundSentence b ⟨set1, count1⟩) (l : List ℕ) :
    ∀ st : AIState, Sound b st →
      Sound b (l.foldl (fun acc j => AIState.derive_at set1 count1 acc j) st) := by
  induction l with
  | nil => exact fun st h => h
  | cons a l ih => exact fun st h => ih _ (sound_derive_at h h1 a)

theorem sound_step5_iter {b : Board} {st : AIState} (hS : Sound b st) (k : ℕ) :
    Sound b (st.step5_iter k) := by
  unfold AIState.step5_iter
  split
  · exact sound_mark_mine_or_safe hS
  · rename_i s1 heq
    have hs1 : SoundSentence b s1 := hS.hkb s1 (mem_of_getElem_opt heq)
    have hs1' : SoundSentence b ⟨s1.cells, s1.count⟩ := hs1
    exact sound_mark_mine_or_safe (sound_foldl_derive hs1' _ st hS)

theorem sound_step5_go {b : Board} (n : ℕ) :
    ∀ st : AIState, Sound b st → Sound b (st.step5_go n) := by
  induction n with
  | zero => exact fun st h => h
  | succ k ih => exact fun st h => ih _ (sound_step5_iter h k)

theorem sound_add_knowledge {b : Board} {st : AIState} (hS : Sound b st)
    {cell : Cell} (hc : cell ∉ b.mines) :
    Sound b (st.add_knowledge cell ((b.nearby_mines cell : ℕ) : Int)) := by
  show Sound b ((((st.observeMark cell).addSentence
      ((st.observeMark cell).new_sentence cell _)).mark_mine_or_safe.prune).step5)
  have h1 : Sound b (st.observeMark cell) := sound_observeMark hS hc
  have h2 : Sound b ((st.observeMark cell).addSentence
      ((st.observeMark cell).new_sentence cell ((b.nearby_mines cell : ℕ) : Int))) :=
    sound_addSentence h1 (sound_new_sentence h1 cell)
  exact sound_step5_go _ _ (sound_prune (sound_mark_mine_or_safe h2))

theorem sound_init (b : Board) : Sound b (AIState.init b.height b.width) := by
  refine ⟨rfl, rfl, ?_, ?_, ?_, ?_⟩
  · exact Finset.empty_subset _
  · intro c hc
    exact absurd hc (Finset.not_mem_empty c)
  · exact Finset.empty_subset _
  · intro s hs
    exact absurd hs (List.not_mem_nil s)

theorem sound_reaches {b : Board} {st : AIState} (h : Reaches b st) : Sound b st := by
  induction h with
  | init => exact sound_init b
  | step cell _ hc ih => exact sound_add_knowledge ih hc

/-- C6.  Under the precondition that every `add_knowledge` call supplies a
truly safe cell together with the true count of mines among its
in-bounds neighbors, the invariant `mines ∩ safes = ∅` holds after every
call (and in every reachable state). -/
theorem claim_C6 {b : Board} {st : AIState} (h : Reaches b st) :
    st.mines ∩ st.safes = ∅ := by
  have hS := sound_reaches h
  rw [Finset.eq_empty_iff_forall_not_mem]
  intro c hc
  obtain ⟨h1, h2⟩ := Finset.mem_inter.mp hc
  exact hS.hsafes c h2 (hS.hmines h1)

/-- Witness for C6 at a concrete reachable state. -/
theorem claim_C6_witness : dupState.mines ∩ dupState.safes = ∅ :=
  claim_C6 (Reaches.step (0, 0) (Reaches.step (1, 1) Reaches.init (by decide)) (by decide))

/-- C3 (amended).  Empty-cell sentences can be retained past the end of a
call: they are removed only by the single pruning pass before subset
derivation, and the derivation phase afterwards can empty sentences in
place (or append empty ones).  Under valid observations every retained
empty-cell sentence has count 0, so it carries no information and is
dropped by the next call's pruning pass. -/
theorem claim_C3_amended (b : Board) (st : AIState) (h : Reaches b st) :
    ∀ s ∈ st.knowledge, s.cells = ∅ → s.count = 0 := by
  intro s hs hcells
  have hsound := (sound_reaches h).hkb s hs
  rw [SoundSentence, hcells, Finset.empty_inter, Finset.card_empty] at hsound
  exact_mod_cast hsound.symm

/-- Witness for the amended C3 at a concrete reachable state holding an
empty sentence. -/
theorem claim_C3_amended_witness : (Sentence.mk ∅ 0).count = 0 :=
  claim_C3_amended dupBoard dupState
    (Reaches.step (0, 0) (Reaches.step (1, 1) Reaches.init (by decide)) (by decide))
    ⟨∅, 0⟩ (by decide) rfl

/-! ### C8: the constructed sentence and its conditional append -/

/-- C8.  On every call from a state whose recorded mines are disjoint from
`safes` and `moves_made` (as in any run under valid observations, where
`mines ∩ safes = ∅` and the observed cell is not a recorded mine), the
sentence constructed by `add_knowledge(cell, count)` has cell set exactly
the in-bounds neighbors of `cell` (the 3×3 block minus `cell` itself)
that are in none of the pre-call `safes`, `moves_made`, `mines`, and
count exactly `count` minus the number of in-bounds neighbors already in
`mines`; and it is appended to the knowledge base if and only if no
equal sentence is present at the moment of the check. -/
theorem claim_C8 (st : AIState) (cell : Cell) (count : Int)
    (hdisj : ∀ c ∈ st.mines, c ∉ st.safes ∧ c ∉ st.moves_made)
    (hcell : cell ∉ st.mines) :
    (st.observeMark cell).new_sentence cell count =
      ⟨(neighbors st.height st.width cell).filter
          (fun c => c ∉ st.safes ∧ c ∉ st.moves_made ∧ c ∉ st.mines),
        count - (((neighbors st.height st.width cell).filter
          (fun c => c ∈ st.mines)).card : Int)⟩ ∧
    ((st.observeMark cell).new_sentence cell count ∈ (st.observeMark cell).knowledge →
      st.add_knowledge cell count =
        ((st.observeMark cell).mark_mine_or_safe.prune).step5) ∧
    ((st.observeMark cell).new_sentence cell count ∉ (st.observeMark cell).knowledge →
      st.add_knowledge cell count =
        (AIState.mk (st.observeMark cell).height (st.observeMark cell).width
          (st.observeMark cell).moves_made (st.observeMark cell).mines
          (st.observeMark cell).safes
          ((st.observeMark cell).knowledge ++ [(st.observeMark cell).new_sentence cell count])
          ).mark_mine_or_safe.prune.step5) := by
  have hsafes : (st.observeMark cell).safes = insert cell st.safes := rfl
  have hmoves : (st.observeMark cell).moves_made = insert cell st.moves_made := rfl
  have hmines : (st.observeMark cell).mines = st.mines := rfl
  refine ⟨?_, ?_, ?_⟩
  · rw [AIState.new_sentence]
    have hh : (st.observeMark cell).height = st.height := rfl
    have hw : (st.observeMark cell).width = st.width := rfl
    rw [hh, hw, hsafes, hmoves, hmines]
    refine congrArg₂ Sentence.mk ?_ ?_
    · refine Finset.filter_congr (fun c hc => ?_)
      have hne : c ≠ cell := (Finset.mem_filter.mp hc).2.1
      simp only [Finset.mem_union, Finset.mem_insert, not_or]
      constructor
      · rintro ⟨⟨⟨_, hs⟩, ⟨_, hm⟩⟩, hmi⟩
        exact ⟨hs, hm, hmi⟩
      · rintro ⟨hs, hm, hmi⟩
        exact ⟨⟨⟨hne, hs⟩, ⟨hne, hm⟩⟩, hmi⟩
    · refine congrArg (fun n : ℕ => count - (n : Int)) (congrArg Finset.card ?_)
      refine Finset.filter_congr (fun c hc => ?_)
      simp only [Finset.mem_union, Finset.mem_insert, not_or]
      constructor
      · rintro ⟨_, hmi⟩
        exact hmi
      · intro hmi
        have hcc : c ≠ cell := fun he => hcell (he ▸ hmi)
        exact ⟨⟨⟨hcc, (hdisj c hmi).1⟩, ⟨hcc, (hdisj c hmi).2⟩⟩, hmi⟩
  · intro hmem
    show (((st.observeMark cell).addSentence
      ((st.observeMark cell).new_sentence cell count)).mark_mine_or_safe.prune).step5 = _
    rw [AIState.addSentence, if_pos hmem]
  · intro hmem
    show (((st.observeMark cell).addSentence
      ((st.observeMark cell).new_sentence cell count)).mark_mine_or_safe.prune).step5 = _
    rw [AIState.addSentence, if_neg hmem]

/-- Witness for C8 at a concrete state with a recorded mine. -/
theorem claim_C8_witness :
    ((AIState.mk 3 3 {(0, 0)} {(2, 2)} {(0, 0)} []).observeMark (0, 1)).new_sentence (0, 1) 2 =
      ⟨(neighbors 3 3 (0, 1)).filter
          (fun c => c ∉ ({(0, 0)} : Finset Cell) ∧ c ∉ ({(0, 0)} : Finset Cell) ∧
            c ∉ ({(2, 2)} : Finset Cell)),
        2 - (((neighbors 3 3 (0, 1)).filter
          (fun c => c ∈ ({(2, 2)} : Finset Cell))).card : Int)⟩ :=
  (claim_C8 (AIState.mk 3 3 {(0, 0)} {(2, 2)} {(0, 0)} []) (0, 1) 2
    (by decide) (by decide)).1
